import Mathlib

/-!
# Binacle: a shallow embedding of the single-shard n-gram index

This file embeds the core of the Binacle on-disk n-gram index
(`src/binacle.rs`, with the parameter validation of
`src/binacle_manager.rs`), and proves properties of the embedded
operations.

Modelling conventions:
* Machine integers are `Nat` with explicit `% 2^w` at the points where the
  original stores or reads fixed-width values (`u8`, `u16`, `u32`,
  `offset_size`-byte fields).
* The memory-mapped file is modelled at block granularity: a total map from
  byte offsets to `Block` images, plus a per-slot header table.  Payload
  bytes are a total function `Nat → Nat`; freshly mapped memory is
  zero-filled, matching `mmap` of a grown file.
* Rust panics (`pack_integer` overflow, indexing an empty vector) are
  modelled as `Option.none`; `io::Result` errors are modelled by `Except`.
* The `f64` running average (`average_size`) is never read by any property
  below and is not modelled.
-/

namespace Binacle

/-! ## Variable-byte integer codec (`pack_integer` / `unpack_integer`) -/

/-- `BinacleFile::pack_integer`.  Returns the packed little-endian word and
the number of bytes used; `none` models the `panic!` on overflow. -/
def pack_integer (int : Nat) : Option (Nat × Nat) :=
  let b1 := (int &&& 0x7F) <<< 0
  let b2 := (int &&& 0x3F80) <<< 1
  let b3 := (int &&& 0x1FC000) <<< 2
  let b4 := (int &&& 0x0FE00000) <<< 3
  if int < 128 then some (b1, 1)
  else if int < 16384 then some (b1 ||| 0x80 ||| b2, 2)
  else if int ≤ 2097152 then some (b1 ||| 0x80 ||| b2 ||| 0x8000 ||| b3, 3)
  else if int ≤ 268435456 then
    some (b1 ||| 0x80 ||| b2 ||| 0x8000 ||| b3 ||| 0x800000 ||| b4, 4)
  else none

/-- `BinacleFile::unpack_integer`: decode a little-endian word read from the
payload; returns the value and the number of bytes consumed. -/
def unpack_integer (int : Nat) : Nat × Nat :=
  let b1 := (int &&& (0x7F <<< 0)) >>> 0
  let b2 := (int &&& (0x7F <<< 8)) >>> 1
  let b3 := (int &&& (0x7F <<< 16)) >>> 2
  let b4 := (int &&& (0x7F <<< 24)) >>> 3
  if int &&& 0x80 = 0 then (b1, 1)
  else if int &&& 0x8000 = 0 then (b1 ||| b2, 2)
  else if int &&& 0x800000 = 0 then (b1 ||| b2 ||| b3, 3)
  else (b1 ||| b2 ||| b3 ||| b4, 4)

/-! ## Shard state -/

/-- The image of one posting-list block: the five-plus-`offset_size`-byte
prefix, parsed, and the payload bytes that follow it.  `prevRaw` is the
stored (right-shifted, truncated) offset of the previous block. -/
structure Block where
  size_log : Nat
  nb_elem : Nat
  nb_bytes : Nat
  prevRaw : Nat
  payload : Nat → Nat

/-- All-zero memory: what a never-written block region reads as. -/
def zeroBlock : Block :=
  { size_log := 0, nb_elem := 0, nb_bytes := 0, prevRaw := 0, payload := fun _ => 0 }

/-- The in-memory state of one shard (`BinacleFile` plus its mapped file).
`header r` is the stored `offset_size`-byte slot value for reduced n-gram
`r`; `blocks o` is the block image at absolute byte offset `o`; `allocLog`
records `(offset, size_log)` of every allocation, newest first. -/
structure Shard where
  offset_size : Nat
  alignment : Nat
  ngram_size : Nat
  size : Nat
  filesize : Nat
  nb_file : Nat
  last_id : Nat
  header : Nat → Nat
  blocks : Nat → Block
  allocLog : List (Nat × Nat)

/-- Initial logical file length chosen by `BinacleFile::create`:
`offset_size * 2^ngram_size` plus `2^alignment - (that % 2^alignment)`.
(Note this adds a full `2^alignment` when the product is already aligned.) -/
def initialSize (off a ng : Nat) : Nat :=
  let s := off * 2 ^ ng
  s + (2 ^ a - s % 2 ^ a)

/-- `BinacleFile::create` (state part): zeroed header table, zeroed heap,
file truncated to `initialSize`. -/
def createState (off a ng : Nat) : Shard :=
  { offset_size := off, alignment := a, ngram_size := ng,
    size := initialSize off a ng, filesize := initialSize off a ng,
    nb_file := 0, last_id := 0,
    header := fun _ => 0, blocks := fun _ => zeroBlock, allocLog := [] }

/-! ## Error model -/

/-- Failure kinds surfaced as `io::Error` by the embedded operations. -/
inductive BinErr where
  | alreadyExists
  | invalidParameter
  | patternTooShort
  deriving DecidableEq

/-- `BinacleFile::create`, including its interaction with the file system:
`ex` says whether the target path already exists (`create_new` fails with
`AlreadyExists` in that case).  The original performs no validation of
`offset_size`, `alignment` or `ngram_size`. -/
def fileCreate (ex : Bool) (off a ng : Nat) : Except BinErr Shard :=
  if ex then .error .alreadyExists else .ok (createState off a ng)

/-- `BinacleManager::add_index`: the only place parameters are range
checked, then the shard file is created. -/
def addIndex (ex : Bool) (off a ng : Nat) : Except BinErr Shard :=
  if off < 4 ∨ 8 < off then .error .invalidParameter
  else if a < 4 ∨ 12 < a then .error .invalidParameter
  else if ng < 14 ∨ 32 < ng then .error .invalidParameter
  else fileCreate ex off a ng

/-! ## Reads and writes inside a block -/

/-- Little-endian `u32` read at payload position `p` (each memory byte is a
real byte, hence the `% 256`). -/
def read32 (b : Block) (p : Nat) : Nat :=
  b.payload p % 256 + 256 * (b.payload (p + 1) % 256) +
    65536 * (b.payload (p + 2) % 256) + 16777216 * (b.payload (p + 3) % 256)

/-- Write the `n` low little-endian bytes of `v` at payload position `p`. -/
def writeBytes (b : Block) (p v n : Nat) : Block :=
  { b with payload := fun q => if p ≤ q ∧ q < p + n then (v >>> (8 * (q - p))) &&& 255 else b.payload q }

/-- `BinacleFile::reduce_ngram`. -/
def reduceNgram (st : Shard) (g : Nat) : Nat :=
  g &&& (2 ^ st.ngram_size - 1)

/-- `BinacleFile::ngram_list_ptr` (relative to the map base): read the
header slot, mask to `offset_size` bytes, shift left by `alignment`. -/
def headOff (st : Shard) (g : Nat) : Nat :=
  (st.header (reduceNgram st g) % 2 ^ (8 * st.offset_size)) <<< st.alignment

/-- `BinacleFile::update_header`: store the right-shifted block offset,
truncated to `offset_size` bytes, into the slot of `g`. -/
def updateHeader (st : Shard) (g listOff : Nat) : Shard :=
  { st with header := fun r =>
      if r = reduceNgram st g then (listOff >>> st.alignment) % 2 ^ (8 * st.offset_size)
      else st.header r }

/-- `BinacleFile::get_list_meta`: `(size_log, nb_elem, nb_bytes, prev)`,
with `prev` masked to `offset_size` bytes and shifted by `alignment`. -/
def getMeta (st : Shard) (off : Nat) : Nat × Nat × Nat × Nat :=
  let b := st.blocks off
  (b.size_log, b.nb_elem, b.nb_bytes,
    (b.prevRaw % 2 ^ (8 * st.offset_size)) <<< st.alignment)

/-- `BinacleFile::update_list_meta`: store the prefix fields with their
on-disk widths (`u8`, `u16`, `u16`, `offset_size` bytes of the shifted
previous offset). -/
def updateListMeta (st : Shard) (off sl nb nbB prevOff : Nat) : Shard :=
  { st with blocks := fun o =>
      if o = off then
        { size_log := sl % 256, nb_elem := nb % 65536, nb_bytes := nbB % 65536,
          prevRaw := (prevOff >>> st.alignment) % 2 ^ (8 * st.offset_size),
          payload := (st.blocks off).payload }
      else st.blocks o }

/-- Replace the block image at `off`. -/
def setBlock (st : Shard) (off : Nat) (b : Block) : Shard :=
  { st with blocks := fun o => if o = off then b else st.blocks o }

/-! ## Allocator -/

/-- `BinacleFile::get_new_free_list`: bump allocator.  Grows the backing
file by `max(512 MiB, block size)` when needed, hands out the current
`size` as the new offset and advances `size` by `2^size_log`.  The
allocation is recorded in `allocLog`. -/
def getNewFreeList (st : Shard) (sl : Nat) : Shard × Nat :=
  let ls := 2 ^ sl
  let nf := if st.filesize ≤ st.size + ls then st.filesize + max (512 * 1024 * 1024) ls
            else st.filesize
  ({ st with filesize := nf, size := st.size + ls,
             allocLog := (st.size, sl) :: st.allocLog }, st.size)

/-- `BinacleFile::alloc_list`: allocate the first block of a chain
(`size_log = alignment`), point the header slot at it, zero its prefix. -/
def allocList (st : Shard) (g : Nat) : Shard × Nat :=
  let sl := st.alignment
  let p := getNewFreeList st sl
  let st1 := updateHeader p.1 g p.2
  (updateListMeta st1 p.2 sl 0 0 0, p.2)

/-- `BinacleFile::realloc_list`: allocate a block of size
`2^min(size_log+1, 12)`, point the header at it, and initialise its prefix
with the old element count, zero bytes, and the old block as previous. -/
def reallocList (st : Shard) (listOff g : Nat) : Shard × Nat × Nat :=
  let m := getMeta st listOff
  let nsl := min (m.1 + 1) 12
  let p := getNewFreeList st nsl
  let st1 := updateHeader p.1 g p.2
  (updateListMeta st1 p.2 nsl m.2.1 0 listOff, p.2, nsl)

/-! ## Insertion -/

/-- The tail of `BinacleFile::insert_ngram` once the target block and its
(possibly reset) local metadata are known.  `none` models the
`pack_integer` panic.  The id delta is computed with wrapping `u32`
subtraction. -/
def insertIntoBlock (st : Shard) (listOff sl ne nb po id : Nat) : Option Shard :=
  if ne ≠ 0 then
    let b := st.blocks listOff
    let lastId := read32 b (nb - 4)
    if lastId = id then some st
    else
      match pack_integer ((id + 2 ^ 32 - lastId) % 2 ^ 32) with
      | none => none
      | some pk =>
        let pos := if ne = 1 then nb else nb - 4
        let nbB := if ne = 1 then nb + 4 else nb
        let b1 := writeBytes b pos pk.1 pk.2
        let b2 := writeBytes b1 (pos + pk.2) id 4
        let st1 := setBlock st listOff b2
        some (updateListMeta st1 listOff sl (ne + 1) (nbB + pk.2) po)
  else
    let b := writeBytes (st.blocks listOff) nb id 4
    let st1 := setBlock st listOff b
    some (updateListMeta st1 listOff sl (ne + 1) (nb + 4) po)

/-- `BinacleFile::insert_ngram`: resolve the header slot (allocating a
first block if empty), reallocate if the capacity check
`2^size_log < nb_bytes + 4 + 5 + offset_size` fails, then insert. -/
def insertNgram (st0 : Shard) (id g : Nat) : Option Shard :=
  let p1 := if headOff st0 g = 0 then allocList st0 g else (st0, headOff st0 g)
  let m := getMeta p1.1 p1.2
  if 2 ^ m.1 < m.2.2.1 + 4 + 5 + p1.1.offset_size then
    let r := reallocList p1.1 p1.2 g
    insertIntoBlock r.1 r.2.1 r.2.2 0 0 p1.2 id
  else
    insertIntoBlock p1.1 p1.2 m.1 m.2.1 m.2.2.1 m.2.2.2 id

/-! ## File insertion (`insert_file`) -/

/-- The read buffer size of `insert_file`: `vec![0u8; 4096*256]`. -/
def bufSize : Nat := 4096 * 256

/-- One file byte as read through the raw pointer (`u8`). -/
def byteAt (c : List Nat) (i : Nat) : Nat := c.getD i 0 % 256

/-- The `u32` n-gram read at position `i` (little-endian, as
`ptr::read::<u32>` on x86). -/
def ngramAt (c : List Nat) (i : Nat) : Nat :=
  byteAt c i + 256 * byteAt c (i + 1) + 65536 * byteAt c (i + 2) +
    16777216 * byteAt c (i + 3)

/-- The successive reads of `insert_file`'s loop: each `read` fills the
buffer with the next `min(bufSize, remaining)` bytes; a read of fewer than
4 bytes breaks out of the loop without being processed. -/
def fileChunks (B : List Nat) : List (List Nat) :=
  if _h : B.length < 4 then []
  else B.take bufSize :: fileChunks (B.drop bufSize)
termination_by B.length
decreasing_by
  simp only [List.length_drop, bufSize]
  omega

/-- The n-grams inserted from one buffer fill: windows `0 .. len-3`. -/
def chunkNgrams (c : List Nat) : List Nat :=
  (List.range (c.length - 3)).map (fun i => ngramAt c i)

/-- All n-grams `insert_file` inserts for a file with contents `B`,
in order. -/
def fileNgrams (B : List Nat) : List Nat :=
  ((fileChunks B).map chunkNgrams).flatten

/-- Insert a list of n-grams for one id, propagating panics. -/
def insertNgrams (st : Shard) (id : Nat) : List Nat → Option Shard
  | [] => some st
  | g :: gs =>
    match insertNgram st id g with
    | none => none
    | some st1 => insertNgrams st1 id gs

/-- `BinacleFile::insert_file`: stream the 4-byte windows of every buffer
fill, then update the file counters.  (The `f64` running average is not
modelled; no property below reads it.) -/
def insertFile (st : Shard) (B : List Nat) (id : Nat) : Option Shard :=
  (insertNgrams st id (fileNgrams B)).map
    (fun s => { s with nb_file := s.nb_file + 1, last_id := id })

/-! ## Queries -/

/-- Decode one block's posting list: after the raw first element, read
`nb_elem - 1` variable-byte deltas, accumulating with wrapping `u32`
addition. -/
def unpackLoop (b : Block) : Nat → Nat → Nat → Finset Nat → Finset Nat
  | 0, _, _, s => s
  | n + 1, pos, cur, s =>
    let d := unpack_integer (read32 b pos)
    let cur2 := (cur + d.1) % 2 ^ 32
    unpackLoop b n (pos + d.2) cur2 (insert cur2 s)

/-- `BinacleFile::unpack_list`. -/
def unpackList (st : Shard) (off : Nat) : Finset Nat :=
  let b := st.blocks off
  if b.nb_elem = 0 then ∅
  else
    let cur := read32 b 0
    unpackLoop b (b.nb_elem - 1) 4 cur {cur}

/-- Walk the `prev` chain, taking the union of the per-block sets.  The
fuel argument bounds the walk; the public wrappers pass one more than the
number of allocations, which covers every chain the allocator can build. -/
def chainFold (st : Shard) : Nat → Nat → Finset Nat → Finset Nat
  | 0, _, acc => acc
  | fuel + 1, off, acc =>
    if off = 0 then acc
    else chainFold st fuel (getMeta st off).2.2.2 (acc ∪ unpackList st off)

/-- Chain-walk fuel used by the wrappers. -/
def fuelOf (st : Shard) : Nat := st.allocLog.length + 1

/-- `BinacleFile::get_ids_by_ngram`. -/
def getIdsByNgram (st : Shard) (g : Nat) : Finset Nat :=
  chainFold st (fuelOf st) (headOff st g) ∅

/-- `BinacleFile::intersect_ids_by_ngram`'s loop: per block, extend the
accumulator with `set ∩ block`, breaking early once the accumulator's
cardinality reaches that of `set`. -/
def interFold (st : Shard) (s : Finset Nat) : Nat → Nat → Finset Nat → Finset Nat
  | 0, _, acc => acc
  | fuel + 1, off, acc =>
    if off = 0 then acc
    else
      let acc2 := acc ∪ (s ∩ unpackList st off)
      if acc2.card = s.card then acc2
      else interFold st s fuel (getMeta st off).2.2.2 acc2

/-- `BinacleFile::intersect_ids_by_ngram`. -/
def intersectIdsByNgram (st : Shard) (s : Finset Nat) (g : Nat) : Finset Nat :=
  interFold st s (fuelOf st) (headOff st g) ∅

/-- `BinacleFile::get_ids_size_by_ngram`'s loop: sum `nb_elem` over the
chain in a wrapping `u32` accumulator. -/
def sizeFold (st : Shard) : Nat → Nat → Nat → Nat
  | 0, _, acc => acc
  | fuel + 1, off, acc =>
    if off = 0 then acc
    else sizeFold st fuel (getMeta st off).2.2.2 ((acc + (getMeta st off).2.1) % 2 ^ 32)

/-- `BinacleFile::get_ids_size_by_ngram`. -/
def getIdsSizeByNgram (st : Shard) (g : Nat) : Nat :=
  sizeFold st (fuelOf st) (headOff st g) 0

/-! ## Search -/

/-- Stable insertion into a by-count-sorted list (models the stable
`sort_by(|a, b| a.1.cmp(&b.1))` on the `(ngram, count)` pairs). -/
def sortedInsert (x : Nat × Nat) : List (Nat × Nat) → List (Nat × Nat)
  | [] => [x]
  | y :: ys => if y.2 ≤ x.2 then y :: sortedInsert x ys else x :: y :: ys

/-- Stable sort of the `(ngram, count)` pairs by ascending count. -/
def sortByCount : List (Nat × Nat) → List (Nat × Nat)
  | [] => []
  | x :: xs => sortedInsert x (sortByCount xs)

/-- The intersection loop of `search_ngrams`, with its emptiness early
exit. -/
def searchLoop (st : Shard) : Finset Nat → List (Nat × Nat) → Finset Nat
  | s, [] => s
  | s, q :: qs =>
    if s = ∅ then s else searchLoop st (intersectIdsByNgram st s q.1) qs

/-- `BinacleFile::search_ngrams`.  `none` models the panic of
`ngram_to_nb[0]` on an empty vector. -/
def searchNgrams (st : Shard) (ngrams : List Nat) : Option (Finset Nat) :=
  let pairs := ngrams.map (fun g => (g, getIdsSizeByNgram st g))
  match sortByCount pairs with
  | [] => none
  | p :: rest => some (searchLoop st (getIdsByNgram st p.1) rest)

/-- `BinacleFile::search`: reject patterns shorter than 4 bytes, split the
pattern into its set of distinct 4-byte windows, delegate.  The outer
`Option` models panics, the inner `Except` the `io::Result`. -/
def searchPattern (st : Shard) (pattern : List Nat) : Option (Except BinErr (Finset Nat)) :=
  if pattern.length < 4 then some (.error .patternTooShort)
  else
    let ngrams := ((List.range (pattern.length - 3)).map (fun i => ngramAt pattern i)).dedup
    (searchNgrams st ngrams).map .ok

/-! ## Reachability and invariants -/

/-- Insert a list of ids under one n-gram, in order (as the tests'
`helper_insert` does), propagating panics. -/
def insertSeq (st : Shard) (g : Nat) : List Nat → Option Shard
  | [] => some st
  | i :: is =>
    match insertNgram st i g with
    | none => none
    | some st1 => insertSeq st1 g is

/-- Shard states reachable from `create` (with parameters in the ranges of
the shard header, §3 of the format description) by `insert_ngram` and
`insert_file` calls with `u32` ids. -/
inductive Reachable : Shard → Prop where
  | create (off a ng : Nat) :
      4 ≤ off → off ≤ 6 → 4 ≤ a → a ≤ 12 → 14 ≤ ng → ng ≤ 32 →
      Reachable (createState off a ng)
  | insert {st st' : Shard} (id g : Nat) : Reachable st → id < 2 ^ 32 →
      insertNgram st id g = some st' → Reachable st'
  | file {st st' : Shard} (B : List Nat) (id : Nat) : Reachable st → id < 2 ^ 32 →
      insertFile st B id = some st' → Reachable st'

/-- Well-formedness of one allocated block of logged size `2^l`.
`nb_bytes` counts the whole packed payload *including* the trailing 4-byte
raw hot tail (the code includes the tail in `nb_bytes`). -/
structure BlockWF (st : Shard) (b : Block) (l : Nat) : Prop where
  sl_eq : b.size_log = l
  al_le : st.alignment ≤ l
  le12 : l ≤ 12
  cap : b.nb_bytes + 5 + st.offset_size ≤ 2 ^ l
  elem_ge1 : 1 ≤ b.nb_elem
  elem_le : b.nb_elem ≤ b.nb_bytes
  bytes_ge4 : 4 ≤ b.nb_bytes
  elem1 : b.nb_elem = 1 → b.nb_bytes = 4
  tail0 : ∀ p, b.nb_bytes ≤ p → b.payload p = 0
  prev_lt : b.prevRaw < 2 ^ (8 * st.offset_size)

/-- The state invariant maintained by `insert_ngram` (for shards whose
`size` has not outgrown the `2^(8*offset_size+alignment)` reach of a
stored offset). -/
structure Inv (st : Shard) : Prop where
  off_lb : 4 ≤ st.offset_size
  off_ub : st.offset_size ≤ 6
  al_lb : 4 ≤ st.alignment
  al_ub : st.alignment ≤ 12
  size_pos : 1 ≤ st.size
  size_al : st.size % 2 ^ st.alignment = 0
  fresh : ∀ e ∈ st.allocLog, e.1 + 2 ^ e.2 ≤ st.size
  unalloc : ∀ o, (∀ e ∈ st.allocLog, e.1 ≠ o) → st.blocks o = zeroBlock
  hdr_lt : ∀ r, st.header r < 2 ^ (8 * st.offset_size)
  hdr_log : ∀ r, st.header r = 0 ∨ ∃ e ∈ st.allocLog, st.header r <<< st.alignment = e.1
  bwf : ∀ e ∈ st.allocLog, BlockWF st (st.blocks e.1) e.2

/-- Allocator conservation: the logical size is the initial (aligned
header) size plus the sum of the sizes of all blocks ever allocated. -/
def AllocEq (st : Shard) : Prop :=
  st.size = initialSize st.offset_size st.alignment st.ngram_size +
    ((st.allocLog.map (fun e => 2 ^ e.2)).sum)

/-- The capacity check of `insert_ngram` holds at the head block of `g`'s
chain: one more insert fits without reallocation. -/
def capacityOk (st : Shard) (g : Nat) : Prop :=
  (getMeta st (headOff st g)).2.2.1 + 4 + 5 + st.offset_size ≤
    2 ^ (getMeta st (headOff st g)).1

/-- After a successful `insert_ngram(id, g)`, the head block of `g`'s chain
is nonempty and its 4-byte raw hot tail reads back as `id`. -/
def headSpec (st : Shard) (id g : Nat) : Prop :=
  headOff st g ≠ 0 ∧
  1 ≤ (st.blocks (headOff st g)).nb_elem ∧
  read32 (st.blocks (headOff st g)) ((st.blocks (headOff st g)).nb_bytes - 4) = id

/-! ## Concrete states used by the boundary results -/

/-- A fresh shard with the test parameters `(5, 6, 28)`. -/
def shard0 : Shard := createState 5 6 28

/-- Ids driven under one n-gram to fill the first 64-byte block to
`nb_bytes = 53`: ids `0..41` (one-byte deltas), then one id at distance
`2^22` (a four-byte delta). -/
def idsA : List Nat := List.range 42 ++ [4194345]

/-- The shard after inserting `idsA` under n-gram `0x11`: its single block
has `nb_bytes = 53` and exactly fills `64 - prefix` bytes. -/
def stB0 : Shard := (insertSeq shard0 17 idsA).getD shard0

/-- `stB0` after a *duplicate* insert of its last id: the capacity check
fires before the hot tail is consulted, so a new block is allocated. -/
def stC0 : Shard := (insertNgram stB0 4194345 17).getD stB0

/-! ## Concrete file for the read-buffer boundary (claim C1) -/

/-- A file one byte longer than the 1 MiB read buffer: `2^20` zero bytes
followed by a single `1`. -/
def fileB : List Nat := List.replicate 1048576 0 ++ [1]

/-- The state after the first `insert_ngram(7, 0)` of `insert_file` on
`fileB` (every window of the first chunk is the zero n-gram, so every
later insert is a no-op). -/
def st1z : Shard := (insertNgram shard0 7 0).getD shard0

/-- The state `insert_file(fileB, 7)` leaves behind. -/
def st1file : Shard := { st1z with nb_file := st1z.nb_file + 1, last_id := 7 }

/-! ## Codec boundary behaviour (claims C3, C4) -/

/-- C3: the codec round-trip does NOT hold on all of `v < 2^28`.  At
`v = 2^21` (well inside the claimed range) the `<= 2097152` branch packs
the value into 3 bytes whose payload only covers bits 0–20, so bit 21 is
lost: `unpack (pack (2^21))` returns `(0, 3)`, not `(2^21, 4)` as the
claimed width table requires. -/
theorem c3_roundtrip_fails_at_2pow21 :
    (2097152 : Nat) = 2 ^ 21 ∧ (2097152 : Nat) < 2 ^ 28 ∧
    pack_integer 2097152 = some (32896, 3) ∧
    unpack_integer 32896 = (0, 3) ∧ (0 : Nat) ≠ 2097152 := by
  refine ⟨by norm_num, by norm_num, ?_, ?_, by norm_num⟩ <;> decide

/-- C4: `pack_integer` does NOT fail at `v = 2^28`.  The `<= 268435456`
branch accepts it and produces a 4-byte encoding whose payload only covers
bits 0–27, so the value silently decodes to 0 instead of failing with
`EncoderOverflow`; the overflow branch is only taken for `v > 2^28`. -/
theorem c4_pack_accepts_2pow28 :
    (268435456 : Nat) = 2 ^ 28 ∧
    pack_integer 268435456 = some (8421504, 4) ∧
    unpack_integer 8421504 = (0, 4) ∧
    pack_integer 268435457 = none := by
  refine ⟨by norm_num, ?_, ?_, ?_⟩ <;> decide

/-! ## Parameter validation (claim C6) -/

/-- C6 counterexample: `BinacleFile::create` performs no parameter
validation at all.  With `offset_size = 7 ∉ [4, 6]` and a fresh path it
succeeds instead of failing with `InvalidParameter`; even the manager's
`add_index` range check accepts 7 (its bound is `[4, 8]`). -/
theorem c6_create_accepts_bad_offset_size :
    fileCreate false 7 6 28 = Except.ok (createState 7 6 28) ∧
    addIndex false 7 6 28 = Except.ok (createState 7 6 28) :=
  ⟨rfl, rfl⟩

/-- C6 (amended): `BinacleFile::create` never fails with
`InvalidParameter`; it fails with `AlreadyExists` exactly when the target
file exists, independently of the parameters.  Range validation happens
only in `BinacleManager::add_index`, which rejects exactly
`offset_size ∉ [4, 8]`, `alignment ∉ [4, 12]` or `ngram_size ∉ [14, 32]`. -/
theorem c6_validation_only_in_add_index (ex : Bool) (off a ng : Nat) :
    (¬ fileCreate ex off a ng = Except.error BinErr.invalidParameter) ∧
    (fileCreate ex off a ng = Except.error BinErr.alreadyExists ↔ ex = true) ∧
    (addIndex ex off a ng = Except.error BinErr.invalidParameter ↔
      off < 4 ∨ 8 < off ∨ a < 4 ∨ 12 < a ∨ ng < 14 ∨ 32 < ng) := by
  refine ⟨?_, ?_, ?_⟩
  · cases ex <;> simp [fileCreate]
  · cases ex <;> simp [fileCreate]
  · unfold addIndex fileCreate
    split_ifs with h1 h2 h3 h4 <;> cases ex <;> simp_all <;> omega

/-! ## Initial file size (claim C7) -/

/-- C7 counterexample: for the in-range parameters `(5, 6, 28)` the product
`offset_size * 2^ngram_size = 5 * 2^28` is already a multiple of
`2^alignment = 64`, so the smallest multiple of `2^alignment` that is
`≥` the product is the product itself; but `create` sets the initial size
to the product plus a full extra `2^alignment`. -/
theorem c7_create_overaligns :
    (5 * 2 ^ 28 : Nat) % 2 ^ 6 = 0 ∧
    (createState 5 6 28).size = 5 * 2 ^ 28 + 2 ^ 6 ∧
    (createState 5 6 28).size ≠ 5 * 2 ^ 28 := by
  refine ⟨by norm_num, ?_, ?_⟩ <;> decide

/-- C7 (amended): for any parameters with `alignment ≤ ngram_size` (true
for every permitted combination, since `alignment ≤ 12 < 14 ≤ ngram_size`),
the product is always a multiple of `2^alignment`, and the initial file
length `create` chooses is exactly `offset_size * 2^ngram_size +
2^alignment` — one full extra alignment block, not the rounded-up value. -/
theorem c7_initial_size (off a ng : Nat) (h : a ≤ ng) :
    (createState off a ng).size = off * 2 ^ ng + 2 ^ a := by
  have hdvd : 2 ^ a ∣ off * 2 ^ ng := Dvd.dvd.mul_left (pow_dvd_pow 2 h) off
  have hm : off * 2 ^ ng % 2 ^ a = 0 := Nat.mod_eq_zero_of_dvd hdvd
  simp [createState, initialSize, hm]

/-- C7 amended-claim witness at the parameters `(5, 6, 28)`. -/
theorem c7_initial_size_witness :
    (createState 5 6 28).size = 5 * 2 ^ 28 + 2 ^ 6 :=
  c7_initial_size 5 6 28 (by norm_num)

/-! ## Intersection agrees with lookup (claim C9) -/

/-- Accumulator lemma for the chain walk: the accumulator only ever joins
the union. -/
theorem chainFold_acc (st : Shard) (fuel : Nat) :
    ∀ (off : Nat) (acc : Finset Nat),
      chainFold st fuel off acc = acc ∪ chainFold st fuel off ∅ := by
  induction fuel with
  | zero => intro off acc; simp [chainFold]
  | succ f ih =>
    intro off acc
    by_cases h : off = 0
    · simp [chainFold, h]
    · simp only [chainFold, h, if_false]
      rw [ih ((getMeta st off).2.2.2) (acc ∪ unpackList st off),
        ih ((getMeta st off).2.2.2) (∅ ∪ unpackList st off)]
      rw [Finset.empty_union, Finset.union_assoc]

/-- The intersection walk computes `acc ∪ (s ∩ union-of-chain)`: the early
exit (accumulator cardinality reaches that of `s`) never changes the
result, because the accumulator can only ever grow inside `s`. -/
theorem interFold_eq (st : Shard) (s : Finset Nat) (fuel : Nat) :
    ∀ (off : Nat) (acc : Finset Nat), acc ⊆ s →
      interFold st s fuel off acc = acc ∪ (s ∩ chainFold st fuel off ∅) := by
  induction fuel with
  | zero => intro off acc _; simp [interFold, chainFold]
  | succ f ih =>
    intro off acc hsub
    by_cases h : off = 0
    · simp [interFold, chainFold, h]
    · simp only [interFold, chainFold, h, if_false]
      have hchain : chainFold st f ((getMeta st off).2.2.2) (∅ ∪ unpackList st off) =
          unpackList st off ∪ chainFold st f ((getMeta st off).2.2.2) ∅ := by
        rw [chainFold_acc st f ((getMeta st off).2.2.2) (∅ ∪ unpackList st off),
          Finset.empty_union]
      have hsub2 : acc ∪ (s ∩ unpackList st off) ⊆ s :=
        Finset.union_subset hsub Finset.inter_subset_left
      by_cases hc : (acc ∪ (s ∩ unpackList st off)).card = s.card
      · rw [if_pos hc, hchain]
        have heq : acc ∪ (s ∩ unpackList st off) = s :=
          Finset.eq_of_subset_of_card_le hsub2 (le_of_eq hc.symm)
        rw [Finset.inter_union_distrib_left, ← Finset.union_assoc, heq]
        exact (Finset.union_eq_left.2 (Finset.inter_subset_left)).symm
      · rw [if_neg hc, ih ((getMeta st off).2.2.2) (acc ∪ (s ∩ unpackList st off)) hsub2,
          hchain, Finset.inter_union_distrib_left, ← Finset.union_assoc]

/-- C9: for every shard state, set `s` and n-gram `g`,
`intersect_ids_by_ngram(s, g)` equals `s ∩ get_ids_by_ngram(g)`; in
particular the result is a subset of `s`, and the early exit taken when the
accumulated result reaches the size of `s` does not change the result. -/
theorem c9_intersect_eq_inter (st : Shard) (s : Finset Nat) (g : Nat) :
    intersectIdsByNgram st s g = s ∩ getIdsByNgram st g := by
  unfold intersectIdsByNgram getIdsByNgram
  rw [interFold_eq st s (fuelOf st) (headOff st g) ∅ (Finset.empty_subset s),
    Finset.empty_union]

/-! ## Search is partial on the empty n-gram set (claim C10) -/

/-- Stable insertion preserves length. -/
theorem length_sortedInsert (x : Nat × Nat) (l : List (Nat × Nat)) :
    (sortedInsert x l).length = l.length + 1 := by
  induction l with
  | nil => rfl
  | cons y ys ih => by_cases h : y.2 ≤ x.2 <;> simp [sortedInsert, h, ih]

/-- The by-count sort preserves length. -/
theorem length_sortByCount (l : List (Nat × Nat)) :
    (sortByCount l).length = l.length := by
  induction l with
  | nil => rfl
  | cons x xs ih => simp [sortByCount, length_sortedInsert, ih]

/-- C10: `search_ngrams` called on an empty n-gram set indexes element 0 of
an empty vector and panics (modelled by `none`) rather than returning an
error or the empty set; `search` never triggers this, because it rejects
patterns shorter than 4 bytes with an error and otherwise passes at least
one n-gram. -/
theorem c10_search_ngrams_empty_panics (st : Shard) (pattern : List Nat) :
    searchNgrams st [] = none ∧
    (pattern.length < 4 →
      searchPattern st pattern = some (Except.error BinErr.patternTooShort)) ∧
    (4 ≤ pattern.length → ∃ r, searchPattern st pattern = some (Except.ok r)) := by
  refine ⟨rfl, fun h => by simp [searchPattern, h], fun h => ?_⟩
  have hlen : ¬ pattern.length < 4 := by omega
  simp only [searchPattern, hlen, if_false]
  set ngrams := ((List.range (pattern.length - 3)).map
    (fun i => ngramAt pattern i)).dedup with hng
  have hne : ngrams ≠ [] := by
    rw [hng, Ne, List.dedup_eq_nil, List.map_eq_nil_iff, List.range_eq_nil]
    omega
  unfold searchNgrams
  cases hs : sortByCount (ngrams.map (fun g => (g, getIdsSizeByNgram st g))) with
  | nil =>
    exfalso
    have := length_sortByCount (ngrams.map (fun g => (g, getIdsSizeByNgram st g)))
    rw [hs] at this
    simp only [List.length_nil, List.length_map] at this
    exact hne (List.length_eq_zero.1 this.symm)
  | cons p rest =>
    simp only [searchNgrams]
    rw [hs]
    exact ⟨_, rfl⟩

/-! ## Byte-level helper lemmas -/

/-- Masking with `255` is reduction mod 256. -/
theorem and255 (x : Nat) : x &&& 255 = x % 256 := by
  have h := Nat.and_pow_two_sub_one_eq_mod x 8
  norm_num at h
  exact h

/-- A 4-byte little-endian read is a `u32`. -/
theorem read32_lt (b : Block) (p : Nat) : read32 b p < 2 ^ 32 := by
  unfold read32
  have h0 := Nat.mod_lt (b.payload p) (show 0 < 256 by norm_num)
  have h1 := Nat.mod_lt (b.payload (p + 1)) (show 0 < 256 by norm_num)
  have h2 := Nat.mod_lt (b.payload (p + 2)) (show 0 < 256 by norm_num)
  have h3 := Nat.mod_lt (b.payload (p + 3)) (show 0 < 256 by norm_num)
  norm_num
  omega

/-- The bytes of a write read as the written value. -/
theorem writeBytes_payload_in (b : Block) (p v n i : Nat) (hi : i < n) :
    (writeBytes b p v n).payload (p + i) = (v >>> (8 * i)) &&& 255 := by
  simp only [writeBytes]
  rw [if_pos ⟨Nat.le_add_right p i, by omega⟩, Nat.add_sub_cancel_left]

/-- Bytes outside the written range are untouched. -/
theorem writeBytes_payload_outside (b : Block) (p v n q : Nat) (h : q < p ∨ p + n ≤ q) :
    (writeBytes b p v n).payload q = b.payload q := by
  simp only [writeBytes]
  rw [if_neg (by omega)]

/-- Reading back a raw 4-byte write returns the value as a `u32`. -/
theorem read32_writeBytes4 (b : Block) (p v : Nat) :
    read32 (writeBytes b p v 4) p = v % 2 ^ 32 := by
  have e0 : (writeBytes b p v 4).payload p = (v >>> (8 * 0)) &&& 255 := by
    have := writeBytes_payload_in b p v 4 0 (by norm_num)
    simpa using this
  have e1 := writeBytes_payload_in b p v 4 1 (by norm_num)
  have e2 := writeBytes_payload_in b p v 4 2 (by norm_num)
  have e3 := writeBytes_payload_in b p v 4 3 (by norm_num)
  unfold read32
  rw [e0, e1, e2, e3, and255, and255, and255, and255,
    Nat.shiftRight_eq_div_pow, Nat.shiftRight_eq_div_pow,
    Nat.shiftRight_eq_div_pow, Nat.shiftRight_eq_div_pow]
  norm_num
  omega

/-- A 4-byte read that does not overlap a write is unchanged. -/
theorem read32_writeBytes_outside (b : Block) (p v n q : Nat)
    (h : q + 4 ≤ p ∨ p + n ≤ q) :
    read32 (writeBytes b p v n) q = read32 b q := by
  unfold read32
  rw [writeBytes_payload_outside b p v n q (by omega),
    writeBytes_payload_outside b p v n (q + 1) (by omega),
    writeBytes_payload_outside b p v n (q + 2) (by omega),
    writeBytes_payload_outside b p v n (q + 3) (by omega)]

/-- A successful pack uses between 1 and 4 bytes. -/
theorem pack_bounds {x : Nat} {pk : Nat × Nat} (h : pack_integer x = some pk) :
    1 ≤ pk.2 ∧ pk.2 ≤ 4 := by
  unfold pack_integer at h
  dsimp only at h
  repeat' split at h
  all_goals
    first
      | exact Option.noConfusion h
      | (injection h with h2; subst h2; constructor <;> norm_num)

/-! ## Block-store helper lemmas -/

/-- Reading the block just replaced. -/
theorem blocks_setBlock_same (st : Shard) (off : Nat) (b : Block) :
    (setBlock st off b).blocks off = b := by
  simp [setBlock]

/-- Reading another block after a replacement. -/
theorem blocks_setBlock_other (st : Shard) (off : Nat) (b : Block) {o : Nat}
    (h : o ≠ off) : (setBlock st off b).blocks o = st.blocks o := by
  simp [setBlock, h]

/-- Reading the block whose prefix was just rewritten. -/
theorem blocks_updateListMeta_same (st : Shard) (off sl nb nbB po : Nat) :
    (updateListMeta st off sl nb nbB po).blocks off =
      { size_log := sl % 256, nb_elem := nb % 65536, nb_bytes := nbB % 65536,
        prevRaw := (po >>> st.alignment) % 2 ^ (8 * st.offset_size),
        payload := (st.blocks off).payload } := by
  simp [updateListMeta]

/-- Reading another block after a prefix rewrite. -/
theorem blocks_updateListMeta_other (st : Shard) (off sl nb nbB po : Nat) {o : Nat}
    (h : o ≠ off) : (updateListMeta st off sl nb nbB po).blocks o = st.blocks o := by
  simp [updateListMeta, h]

/-! ## Offset encoding round trips -/

/-- Storing an aligned, in-reach offset (shift right, truncate to
`offset_size` bytes) and reading it back (mask, shift left) is lossless. -/
theorem shift_roundtrip {x a w : Nat} (hal : x % 2 ^ a = 0) (hlt : x < 2 ^ (w + a)) :
    ((x >>> a) % 2 ^ w) <<< a = x := by
  rw [Nat.shiftRight_eq_div_pow, Nat.shiftLeft_eq]
  have h1 : x / 2 ^ a < 2 ^ w := by
    apply Nat.div_lt_of_lt_mul
    calc x < 2 ^ (w + a) := hlt
    _ = 2 ^ a * 2 ^ w := by rw [pow_add]; ring
  rw [Nat.mod_eq_of_lt h1]
  exact Nat.div_mul_cancel (Nat.dvd_of_mod_eq_zero hal)

/-- Re-encoding a decoded previous-offset field is the identity on the
stored value. -/
theorem shift_unshift (x a w : Nat) : (((x % 2 ^ w) <<< a) >>> a) % 2 ^ w = x % 2 ^ w := by
  rw [Nat.shiftLeft_eq, Nat.shiftRight_eq_div_pow,
    Nat.mul_div_cancel _ (Nat.pos_pow_of_pos a (by norm_num))]
  exact Nat.mod_eq_of_lt (Nat.mod_lt _ (Nat.pos_pow_of_pos w (by norm_num)))

/-- Block well-formedness only depends on the two shard parameters. -/
theorem BlockWF.transfer {st st' : Shard} {b : Block} {l : Nat}
    (ha : st'.alignment = st.alignment) (ho : st'.offset_size = st.offset_size)
    (h : BlockWF st b l) : BlockWF st' b l where
  sl_eq := h.sl_eq
  al_le := ha ▸ h.al_le
  le12 := h.le12
  cap := ho ▸ h.cap
  elem_ge1 := h.elem_ge1
  elem_le := h.elem_le
  bytes_ge4 := h.bytes_ge4
  elem1 := h.elem1
  tail0 := h.tail0
  prev_lt := ho ▸ h.prev_lt

/-! ## Branch equations for `insertIntoBlock` -/

/-- The first element of a block is stored raw. -/
theorem insertIntoBlock_zero (st : Shard) (off sl nb po id : Nat) :
    insertIntoBlock st off sl 0 nb po id =
      some (updateListMeta (setBlock st off (writeBytes (st.blocks off) nb id 4))
        off sl 1 (nb + 4) po) := rfl

/-- Inserting the id already sitting in the hot tail is a no-op. -/
theorem insertIntoBlock_noop (st : Shard) (off sl ne nb po id : Nat) (hne : ne ≠ 0)
    (hlast : read32 (st.blocks off) (nb - 4) = id) :
    insertIntoBlock st off sl ne nb po id = some st := by
  unfold insertIntoBlock
  rw [if_pos hne]
  dsimp only
  rw [if_pos hlast]

/-- Appending a new id: pack the delta over the hot tail, then re-write the
raw id after it. -/
theorem insertIntoBlock_write (st : Shard) (off sl ne nb po id : Nat) {pk : Nat × Nat}
    (hne : ne ≠ 0)
    (hlast : ¬ read32 (st.blocks off) (nb - 4) = id)
    (hpk : pack_integer ((id + 2 ^ 32 - read32 (st.blocks off) (nb - 4)) % 2 ^ 32) =
      some pk) :
    insertIntoBlock st off sl ne nb po id =
      some (updateListMeta
        (setBlock st off
          (writeBytes
            (writeBytes (st.blocks off) (if ne = 1 then nb else nb - 4) pk.1 pk.2)
            ((if ne = 1 then nb else nb - 4) + pk.2) id 4))
        off sl (ne + 1) ((if ne = 1 then nb + 4 else nb) + pk.2) po) := by
  unfold insertIntoBlock
  rw [if_pos hne]
  dsimp only
  rw [if_neg hlast, hpk]

/-! ## Effect of `insert_ngram` on the allocator state -/

/-- `insertIntoBlock` only ever modifies the block store. -/
theorem insertIntoBlock_fields {st st' : Shard} {listOff sl ne nb po id : Nat}
    (h : insertIntoBlock st listOff sl ne nb po id = some st') :
    st'.offset_size = st.offset_size ∧ st'.alignment = st.alignment ∧
    st'.ngram_size = st.ngram_size ∧ st'.size = st.size ∧
    st'.allocLog = st.allocLog ∧ st'.header = st.header := by
  unfold insertIntoBlock at h
  dsimp only at h
  repeat' split at h
  all_goals
    first
      | exact Option.noConfusion h
      | (injection h with h2; subst h2; exact ⟨rfl, rfl, rfl, rfl, rfl, rfl⟩)

/-- Each successful `insert_ngram` either leaves the allocator state
unchanged, or performs exactly one allocation: the new block is handed out
at the current `shard.size` and `shard.size` advances by exactly the block
size `2^l`. -/
theorem insertNgram_alloc {st st' : Shard} {id g : Nat}
    (h4a : 4 ≤ st.alignment) (ha12 : st.alignment ≤ 12) (hoff : st.offset_size ≤ 6)
    (h : insertNgram st id g = some st') :
    st'.offset_size = st.offset_size ∧ st'.alignment = st.alignment ∧
    st'.ngram_size = st.ngram_size ∧
    ((st'.allocLog = st.allocLog ∧ st'.size = st.size) ∨
      ∃ l, st'.allocLog = (st.size, l) :: st.allocLog ∧ st'.size = st.size + 2 ^ l) := by
  have h16 : 16 ≤ 2 ^ st.alignment := by
    calc (16 : Nat) = 2 ^ 4 := by norm_num
    _ ≤ 2 ^ st.alignment := Nat.pow_le_pow_right (by norm_num) h4a
  have hal : st.alignment % 256 = st.alignment := Nat.mod_eq_of_lt (by omega)
  unfold insertNgram at h
  dsimp only at h
  by_cases hh : headOff st g = 0
  · rw [if_pos hh] at h
    simp only [allocList, getNewFreeList, updateHeader, updateListMeta, getMeta,
      Nat.zero_mod, Nat.zero_shiftRight, Nat.zero_shiftLeft, if_pos rfl, hal,
      ite_true] at h
    rw [if_neg (by omega)] at h
    obtain ⟨f1, f2, f3, f4, f5, f6⟩ := insertIntoBlock_fields h
    exact ⟨f1, f2, f3, Or.inr ⟨st.alignment, by rw [f5], by rw [f4]⟩⟩
  · rw [if_neg hh] at h
    split at h
    · obtain ⟨f1, f2, f3, f4, f5, f6⟩ := insertIntoBlock_fields h
      refine ⟨f1, f2, f3, Or.inr ⟨min ((getMeta st (headOff st g)).1 + 1) 12, ?_, ?_⟩⟩
      · rw [f5]; rfl
      · rw [f4]; rfl
    · obtain ⟨f1, f2, f3, f4, f5, f6⟩ := insertIntoBlock_fields h
      exact ⟨f1, f2, f3, Or.inl ⟨f5, f4⟩⟩

/-- Allocator conservation is preserved along a whole n-gram list. -/
theorem insertNgrams_alloc {id : Nat} {gs : List Nat} :
    ∀ {st st' : Shard}, 4 ≤ st.alignment → st.alignment ≤ 12 → st.offset_size ≤ 6 →
      insertNgrams st id gs = some st' → AllocEq st →
      st'.offset_size = st.offset_size ∧ st'.alignment = st.alignment ∧
      st'.ngram_size = st.ngram_size ∧ AllocEq st' := by
  induction gs with
  | nil =>
    intro st st' _ _ _ h hA
    injection h with h2
    subst h2
    exact ⟨rfl, rfl, rfl, hA⟩
  | cons g gs ih =>
    intro st st' h4a ha12 hoff h hA
    unfold insertNgrams at h
    cases hg : insertNgram st id g with
    | none => rw [hg] at h; exact Option.noConfusion h
    | some st1 =>
      rw [hg] at h
      obtain ⟨p1, p2, p3, hd⟩ := insertNgram_alloc h4a ha12 hoff hg
      have hA1 : AllocEq st1 := by
        unfold AllocEq at hA ⊢
        rcases hd with ⟨hl, hs⟩ | ⟨l, hl, hs⟩
        · rw [hs, hl, p1, p2, p3]; exact hA
        · rw [hs, hl, p1, p2, p3, List.map_cons, List.sum_cons, hA]; ring
      obtain ⟨q1, q2, q3, hA'⟩ := ih (p2 ▸ h4a) (p2 ▸ ha12) (p1 ▸ hoff) h hA1
      exact ⟨q1.trans p1, q2.trans p2, q3.trans p3, hA'⟩

/-- Every reachable shard has in-range parameters and satisfies allocator
conservation. -/
theorem reachable_alloc (st : Shard) (h : Reachable st) :
    4 ≤ st.offset_size ∧ st.offset_size ≤ 6 ∧ 4 ≤ st.alignment ∧
    st.alignment ≤ 12 ∧ AllocEq st := by
  induction h with
  | create off a ng h1 h2 h3 h4 h5 h6 =>
    exact ⟨h1, h2, h3, h4, by simp [AllocEq, createState]⟩
  | insert id g hR hid hI ih =>
    obtain ⟨r1, r2, r3, r4, hA⟩ := ih
    obtain ⟨p1, p2, p3, hd⟩ := insertNgram_alloc r3 r4 r2 hI
    refine ⟨p1 ▸ r1, p1 ▸ r2, p2 ▸ r3, p2 ▸ r4, ?_⟩
    unfold AllocEq at hA ⊢
    rcases hd with ⟨hl, hs⟩ | ⟨l, hl, hs⟩
    · rw [hs, hl, p1, p2, p3]; exact hA
    · rw [hs, hl, p1, p2, p3, List.map_cons, List.sum_cons, hA]; ring
  | file B id hR hid hI ih =>
    obtain ⟨r1, r2, r3, r4, hA⟩ := ih
    unfold insertFile at hI
    cases hg : insertNgrams _ id (fileNgrams B) with
    | none => rw [hg] at hI; exact Option.noConfusion hI
    | some st1 =>
      rw [hg] at hI
      injection hI with h2
      subst h2
      obtain ⟨q1, q2, q3, hA'⟩ := insertNgrams_alloc r3 r4 r2 hg hA
      exact ⟨q1 ▸ r1, q1 ▸ r2, q2 ▸ r3, q2 ▸ r4, hA'⟩

/-- Every id of the driving sequence `idsA` is a `u32`. -/
theorem idsA_u32 : ∀ i ∈ idsA, i < 2 ^ 32 := by decide

/-- `insertSeq` only visits reachable states. -/
theorem reachable_insertSeq {g : Nat} {is : List Nat} :
    ∀ {st st' : Shard}, Reachable st → (∀ i ∈ is, i < 2 ^ 32) →
      insertSeq st g is = some st' → Reachable st' := by
  induction is with
  | nil =>
    intro st st' hR _ h
    injection h with h2
    subst h2
    exact hR
  | cons i is ih =>
    intro st st' hR hids h
    unfold insertSeq at h
    cases hg : insertNgram st i g with
    | none => rw [hg] at h; exact Option.noConfusion h
    | some st1 =>
      rw [hg] at h
      exact ih (Reachable.insert i g hR (hids i (by simp)) hg)
        (fun j hj => hids j (by simp [hj])) h

set_option maxHeartbeats 4000000 in
/-- Evaluating the driving sequence: `idsA` under n-gram `0x11` succeeds
and produces `stB0`. -/
theorem insertSeq_stB0 : insertSeq shard0 17 idsA = some stB0 := rfl

/-- The filled-to-the-brim state `stB0` is reachable. -/
theorem reachable_stB0 : Reachable stB0 :=
  reachable_insertSeq
    (Reachable.create 5 6 28 (by norm_num) (by norm_num) (by norm_num)
      (by norm_num) (by norm_num) (by norm_num))
    idsA_u32 insertSeq_stB0

/-- C8: for every shard reachable by `create` followed by any sequence of
`insert_ngram` / `insert_file` operations, `shard.size` equals the initial
(aligned header) size plus the sum of `2^size_log` over all blocks ever
allocated: the bump allocator hands out the current `shard.size` as the new
block's offset and advances `shard.size` by exactly the block size, and no
other operation changes `shard.size`. -/
theorem c8_size_conservation (st : Shard) (h : Reachable st) :
    st.size = initialSize st.offset_size st.alignment st.ngram_size +
      ((st.allocLog.map (fun e => 2 ^ e.2)).sum) :=
  (reachable_alloc st h).2.2.2.2

/-- C8 witness: the conservation equation at the concrete reachable state
`stB0` (one 64-byte block allocated). -/
theorem c8_size_witness :
    stB0.size = initialSize stB0.offset_size stB0.alignment stB0.ngram_size +
      ((stB0.allocLog.map (fun e => 2 ^ e.2)).sum) :=
  c8_size_conservation stB0 reachable_stB0

set_option maxHeartbeats 4000000 in
/-- C2 counterexample: in the reachable state `stB0`, the head block of
n-gram `0x11`'s chain has `nb_bytes = 53` in a 64-byte block with a
`5 + offset_size = 10`-byte prefix.  The code's `nb_bytes` already includes
the 4-byte hot tail, so `nb_bytes + prefix = 63 ≤ 64` holds, but the
claimed inequality `nb_bytes + 4 (hot tail) + prefix ≤ 2^size_log` fails:
`53 + 4 + 10 = 67 > 64`.  (The state is reached precisely because the code
reallocates only when `nb_bytes + 4 + 5 + offset_size` overflows, not at
the claimed threshold with the extra `+ 4` packed-delta headroom.) -/
theorem c2_tail_already_counted :
    Reachable stB0 ∧
    headOff stB0 17 = 1342177344 ∧
    (1342177344, 6) ∈ stB0.allocLog ∧
    (stB0.blocks 1342177344).size_log = 6 ∧
    (stB0.blocks 1342177344).nb_bytes = 53 ∧
    ¬ ((stB0.blocks 1342177344).nb_bytes + 4 + (1 + 2 + 2 + stB0.offset_size) ≤
        2 ^ (stB0.blocks 1342177344).size_log) :=
  ⟨reachable_stB0, by decide⟩

set_option maxHeartbeats 4000000 in
/-- C5 counterexample: inserting `(4194345, 0x11)` twice in succession into
`shard0`-after-`idsA` is NOT a no-op of the second insert.  After the first
insert the hot tail does read back as the id, but the second insert runs
the capacity check first (`64 < 53 + 4 + 5 + 5`), reallocates a fresh
128-byte block and re-inserts the id there, so the state changes. -/
theorem c5_duplicate_reallocates :
    read32 (stB0.blocks (headOff stB0 17)) ((stB0.blocks (headOff stB0 17)).nb_bytes - 4) =
      4194345 ∧
    insertNgram stB0 4194345 17 = some stC0 ∧
    stC0.allocLog.length = 2 ∧ stB0.allocLog.length = 1 ∧
    insertNgram stB0 4194345 17 ≠ some stB0 := by
  have h1 : insertNgram stB0 4194345 17 = some stC0 := rfl
  have h2 : stC0.allocLog.length = 2 := by decide
  have h3 : stB0.allocLog.length = 1 := by decide
  refine ⟨by decide, h1, h2, h3, fun hEq => ?_⟩
  have hC : stC0 = stB0 := by
    have := h1.symm.trans hEq
    injection this
  rw [hC, h3] at h2
  exact absurd h2 (by norm_num)

/-- C10 witness: concrete instances of all three conjuncts, on a freshly
created shard. -/
theorem c10_search_witness :
    searchNgrams (createState 5 6 28) [] = none ∧
    searchPattern (createState 5 6 28) [9, 9, 9] =
      some (Except.error BinErr.patternTooShort) ∧
    ∃ r, searchPattern (createState 5 6 28) [1, 2, 3, 4] = some (Except.ok r) :=
  ⟨(c10_search_ngrams_empty_panics (createState 5 6 28) []).1,
    (c10_search_ngrams_empty_panics (createState 5 6 28) [9, 9, 9]).2.1 (by norm_num),
    (c10_search_ngrams_empty_panics (createState 5 6 28) [1, 2, 3, 4]).2.2 (by norm_num)⟩


/-! ## The shard invariant under `insert_ngram` -/

/-- `read32` only depends on the payload. -/
theorem read32_congr {b b2 : Block} (h : b.payload = b2.payload) (p : Nat) :
    read32 b p = read32 b2 p := by
  unfold read32
  rw [h]

theorem inv_fresh_block (st stX : Shard) (g id sl po : Nat)
    (hI : Inv st) (hid : id < 2 ^ 32)
    (hsl_lb : st.alignment ≤ sl) (hsl_ub : sl ≤ 12)
    (hXoff : stX.offset_size = st.offset_size)
    (hXal : stX.alignment = st.alignment)
    (hXng : stX.ngram_size = st.ngram_size)
    (hXsize : stX.size = st.size + 2 ^ sl)
    (hXlog : stX.allocLog = (st.size, sl) :: st.allocLog)
    (hXhdr : ∀ r, stX.header r =
      if r = reduceNgram st g then (st.size >>> st.alignment) % 2 ^ (8 * st.offset_size)
      else st.header r)
    (hXblocks : ∀ o, o ≠ st.size → stX.blocks o = st.blocks o)
    (hXpayload : (stX.blocks st.size).payload = (st.blocks st.size).payload)
    (hBnd : st.size + 2 ^ sl ≤ 2 ^ (8 * st.offset_size + st.alignment)) :
    Inv (updateListMeta (setBlock stX st.size
        (writeBytes (stX.blocks st.size) 0 id 4)) st.size sl 1 4 po) ∧
    headSpec (updateListMeta (setBlock stX st.size
        (writeBytes (stX.blocks st.size) 0 id 4)) st.size sl 1 4 po) id g := by
  set stY := updateListMeta (setBlock stX st.size
      (writeBytes (stX.blocks st.size) 0 id 4)) st.size sl 1 4 po with hY
  have hYoff : stY.offset_size = st.offset_size := hXoff
  have hYal : stY.alignment = st.alignment := hXal
  have hYng : stY.ngram_size = st.ngram_size := hXng
  have hYsize : stY.size = st.size + 2 ^ sl := hXsize
  have hYlog : stY.allocLog = (st.size, sl) :: st.allocLog := hXlog
  have hYhdr : ∀ r, stY.header r =
      if r = reduceNgram st g then (st.size >>> st.alignment) % 2 ^ (8 * st.offset_size)
      else st.header r := hXhdr
  have hzero : st.blocks st.size = zeroBlock := by
    apply hI.unalloc
    intro e he
    have h1 := hI.fresh e he
    have h2 : 0 < 2 ^ e.2 := Nat.pos_pow_of_pos _ (by norm_num)
    omega
  have hsizelt : st.size < 2 ^ (8 * st.offset_size + st.alignment) := by
    have h2 : 0 < 2 ^ sl := Nat.pos_pow_of_pos _ (by norm_num)
    omega
  have hrt : ((st.size >>> st.alignment) % 2 ^ (8 * st.offset_size)) <<< st.alignment =
      st.size := shift_roundtrip hI.size_al hsizelt
  have hYb : stY.blocks st.size =
      { size_log := sl % 256, nb_elem := 1 % 65536, nb_bytes := 4 % 65536,
        prevRaw := (po >>> stX.alignment) % 2 ^ (8 * stX.offset_size),
        payload := (writeBytes (stX.blocks st.size) 0 id 4).payload } := by
    rw [hY, blocks_updateListMeta_same, blocks_setBlock_same]
    rfl
  have hYbo : ∀ o, o ≠ st.size → stY.blocks o = st.blocks o := by
    intro o ho
    rw [hY, blocks_updateListMeta_other _ _ _ _ _ _ ho, blocks_setBlock_other _ _ _ ho,
      hXblocks o ho]
  have hsl256 : sl % 256 = sl := Nat.mod_eq_of_lt (by omega)
  have h2sl : 16 ≤ 2 ^ sl := by
    calc (16 : Nat) = 2 ^ 4 := by norm_num
    _ ≤ 2 ^ sl := Nat.pow_le_pow_right (by norm_num) (by have := hI.al_lb; omega)
  have hpos : 0 < 2 ^ (8 * st.offset_size) := Nat.pos_pow_of_pos _ (by norm_num)
  have hpayW : ∀ p, 4 ≤ p → (writeBytes (stX.blocks st.size) 0 id 4).payload p = 0 := by
    intro p hp
    rw [writeBytes_payload_outside _ _ _ _ _ (by omega), hXpayload, hzero]
    rfl
  constructor
  · refine ⟨?_, ?_, ?_, ?_, ?_, ?_, ?_, ?_, ?_, ?_, ?_⟩
    · rw [hYoff]; exact hI.off_lb
    · rw [hYoff]; exact hI.off_ub
    · rw [hYal]; exact hI.al_lb
    · rw [hYal]; exact hI.al_ub
    · rw [hYsize]; have := hI.size_pos; omega
    · rw [hYsize, hYal, Nat.add_mod, hI.size_al,
        Nat.mod_eq_zero_of_dvd (pow_dvd_pow 2 hsl_lb)]
      simp
    · intro e he
      rw [hYlog] at he
      rw [hYsize]
      rcases List.mem_cons.1 he with he1 | he2
      · subst he1; exact le_refl _
      · have := hI.fresh e he2
        omega
    · intro o ho
      rw [hYlog] at ho
      have h1 : st.size ≠ o := ho (st.size, sl) (List.mem_cons_self _ _)
      rw [hYbo o (Ne.symm h1)]
      exact hI.unalloc o (fun e he => ho e (List.mem_cons_of_mem _ he))
    · intro r
      rw [hYhdr r, hYoff]
      split
      · exact Nat.mod_lt _ hpos
      · exact hI.hdr_lt r
    · intro r
      rw [hYhdr r, hYlog, hYal]
      split
      · exact Or.inr ⟨(st.size, sl), List.mem_cons_self _ _, hrt⟩
      · rcases hI.hdr_log r with h0 | ⟨e, he, hee⟩
        · exact Or.inl h0
        · exact Or.inr ⟨e, List.mem_cons_of_mem _ he, hee⟩
    · intro e he
      rw [hYlog] at he
      rcases List.mem_cons.1 he with he1 | he2
      · subst he1
        rw [hYb]
        refine ⟨?_, ?_, ?_, ?_, ?_, ?_, ?_, ?_, ?_, ?_⟩
        · dsimp only; rw [hsl256]
        · rw [hYal]; exact hsl_lb
        · exact hsl_ub
        · dsimp only; rw [hYoff]
          have := hI.off_ub
          omega
        · dsimp only; norm_num
        · dsimp only; norm_num
        · dsimp only; norm_num
        · dsimp only; intro; norm_num
        · dsimp only
          intro p hp
          exact hpayW p (by omega)
        · dsimp only; rw [hYoff, hXoff]
          exact Nat.mod_lt _ hpos
      · have hne : e.1 ≠ st.size := by
          have h1 := hI.fresh e he2
          have h2 : 0 < 2 ^ e.2 := Nat.pos_pow_of_pos _ (by norm_num)
          omega
        rw [hYbo e.1 hne]
        exact BlockWF.transfer hYal hYoff (hI.bwf e he2)
  · have hred : reduceNgram stY g = reduceNgram st g := by
      unfold reduceNgram
      rw [hYng]
    have hhead : headOff stY g = st.size := by
      unfold headOff
      rw [hred, hYhdr, if_pos rfl, hYoff, hYal,
        Nat.mod_eq_of_lt (Nat.mod_lt _ hpos)]
      exact hrt
    refine ⟨?_, ?_, ?_⟩
    · rw [hhead]
      have := hI.size_pos
      omega
    · rw [hhead, hYb]
    · rw [hhead, hYb]
      dsimp only
      rw [read32_congr (show
          ({ size_log := sl % 256, nb_elem := 1 % 65536, nb_bytes := 4 % 65536,
             prevRaw := (po >>> stX.alignment) % 2 ^ (8 * stX.offset_size),
             payload := (writeBytes (stX.blocks st.size) 0 id 4).payload } : Block).payload =
          (writeBytes (stX.blocks st.size) 0 id 4).payload from rfl)]
      norm_num
      rw [read32_writeBytes4]
      exact Nat.mod_eq_of_lt hid

theorem inv_append_block (st : Shard) (g id X l pos nbB po : Nat) (pk : Nat × Nat)
    (hI : Inv st) (hid : id < 2 ^ 32)
    (hmem : (X, l) ∈ st.allocLog)
    (hX : headOff st g = X) (hXne : X ≠ 0)
    (hcap : (st.blocks X).nb_bytes + 4 + 5 + st.offset_size ≤ 2 ^ l)
    (hpk1 : 1 ≤ pk.2) (hpk4 : pk.2 ≤ 4)
    (hpos1 : pos = if (st.blocks X).nb_elem = 1 then (st.blocks X).nb_bytes
      else (st.blocks X).nb_bytes - 4)
    (hnbB : nbB = if (st.blocks X).nb_elem = 1 then (st.blocks X).nb_bytes + 4
      else (st.blocks X).nb_bytes)
    (hpo : po = ((st.blocks X).prevRaw % 2 ^ (8 * st.offset_size)) <<< st.alignment) :
    Inv (updateListMeta (setBlock st X
        (writeBytes (writeBytes (st.blocks X) pos pk.1 pk.2) (pos + pk.2) id 4))
        X l ((st.blocks X).nb_elem + 1) (nbB + pk.2) po) ∧
    headSpec (updateListMeta (setBlock st X
        (writeBytes (writeBytes (st.blocks X) pos pk.1 pk.2) (pos + pk.2) id 4))
        X l ((st.blocks X).nb_elem + 1) (nbB + pk.2) po) id g := by
  obtain ⟨hsl, hall, hl12, hbcap, hge1, hele, hge4, he1, htl0, hplt⟩ := hI.bwf (X, l) hmem
  set b := st.blocks X with hbdef
  set ne := b.nb_elem with hnedef
  set nb := b.nb_bytes with hnbdef
  set b2 := writeBytes (writeBytes b pos pk.1 pk.2) (pos + pk.2) id 4 with hb2
  set stY := updateListMeta (setBlock st X b2) X l (ne + 1) (nbB + pk.2) po with hY
  -- unified geometry
  have hoff6 := hI.off_ub
  have hoff4 := hI.off_lb
  have hgeom : pos + pk.2 + 4 = nbB + pk.2 ∧ nb ≤ nbB ∧ nbB + pk.2 + 5 + st.offset_size ≤ 2 ^ l := by
    by_cases h1 : ne = 1
    · rw [hpos1, hnbB, if_pos h1, if_pos h1]
      have hnb4 : nb = 4 := he1 h1
      have h17 : 17 ≤ 2 ^ l := by rw [hnb4] at hcap; omega
      have hl5 : 5 ≤ l := by
        by_contra hcon
        have : 2 ^ l ≤ 2 ^ 4 := Nat.pow_le_pow_right (by norm_num) (by omega)
        norm_num at this
        omega
      have h32 : 32 ≤ 2 ^ l := by
        calc (32 : Nat) = 2 ^ 5 := by norm_num
        _ ≤ 2 ^ l := Nat.pow_le_pow_right (by norm_num) hl5
      rw [hnb4]
      omega
    · rw [hpos1, hnbB, if_neg h1, if_neg h1]
      omega
  obtain ⟨hg1, hg2, hg3⟩ := hgeom
  have hnb4096 : nbB + pk.2 ≤ 2 ^ 12 := by
    have : (2 : Nat) ^ l ≤ 2 ^ 12 := Nat.pow_le_pow_right (by norm_num) hl12
    omega
  have hne65536 : ne + 1 < 65536 := by omega
  have hl256 : l % 256 = l := Nat.mod_eq_of_lt (by omega)
  have hnbm : (nbB + pk.2) % 65536 = nbB + pk.2 := Nat.mod_eq_of_lt (by omega)
  have hnem : (ne + 1) % 65536 = ne + 1 := Nat.mod_eq_of_lt (by omega)
  have hpos8 : 0 < 2 ^ (8 * st.offset_size) := Nat.pos_pow_of_pos _ (by norm_num)
  -- the new block image
  have hYb : stY.blocks X =
      { size_log := l % 256, nb_elem := (ne + 1) % 65536, nb_bytes := (nbB + pk.2) % 65536,
        prevRaw := (po >>> st.alignment) % 2 ^ (8 * st.offset_size),
        payload := b2.payload } := by
    rw [hY, blocks_updateListMeta_same, blocks_setBlock_same]
    rfl
  have hYbo : ∀ o, o ≠ X → stY.blocks o = st.blocks o := by
    intro o ho
    rw [hY, blocks_updateListMeta_other _ _ _ _ _ _ ho, blocks_setBlock_other _ _ _ ho]
  have hb2tail : ∀ p, nbB + pk.2 ≤ p → b2.payload p = 0 := by
    intro p hp
    rw [hb2, writeBytes_payload_outside _ _ _ _ _ (by omega),
      writeBytes_payload_outside _ _ _ _ _ (by omega)]
    exact htl0 p (by omega)
  have hprev2 : (po >>> st.alignment) % 2 ^ (8 * st.offset_size) = b.prevRaw := by
    rw [hpo, shift_unshift]
    exact Nat.mod_eq_of_lt hplt
  have hYoffY : stY.offset_size = st.offset_size := rfl
  have hYalY : stY.alignment = st.alignment := rfl
  constructor
  · refine ⟨hI.off_lb, hI.off_ub, hI.al_lb, hI.al_ub, hI.size_pos, hI.size_al, hI.fresh,
      ?_, hI.hdr_lt, hI.hdr_log, ?_⟩
    · intro o ho
      have h1 : X ≠ o := ho (X, l) hmem
      rw [hYbo o (Ne.symm h1)]
      exact hI.unalloc o ho
    · intro e he
      by_cases heX : e.1 = X
      · have hel : e.2 = l := by
          have h1 := (hI.bwf e he).sl_eq
          rw [heX] at h1
          rw [← h1, hsl]
        rw [heX, hel, hYb]
        refine ⟨?_, ?_, ?_, ?_, ?_, ?_, ?_, ?_, ?_, ?_⟩
        · dsimp only; rw [hl256]
        · rw [hYalY]; exact hall
        · exact hl12
        · dsimp only; rw [hnbm, hYoffY]; omega
        · dsimp only; rw [hnem]; omega
        · dsimp only; rw [hnem, hnbm]; omega
        · dsimp only; rw [hnbm]; omega
        · dsimp only; rw [hnem, hnbm]; intro hcon; omega
        · dsimp only
          intro p hp
          rw [hnbm] at hp
          exact hb2tail p hp
        · dsimp only
          rw [hprev2]
          exact hplt
      · rw [hYbo e.1 heX]
        exact BlockWF.transfer hYalY hYoffY (hI.bwf e he)
  · have hhead : headOff stY g = X := hX
    refine ⟨?_, ?_, ?_⟩
    · rw [hhead]; exact hXne
    · rw [hhead, hYb]
      dsimp only
      rw [hnem]
      omega
    · rw [hhead, hYb]
      dsimp only
      rw [hnem, hnbm]
      have hr : nbB + pk.2 - 4 = pos + pk.2 := by omega
      rw [hr]
      show read32 b2 (pos + pk.2) = id
      rw [hb2, read32_writeBytes4]
      exact Nat.mod_eq_of_lt hid

/-- A panic of the delta encoder propagates. -/
theorem insertIntoBlock_panic (st : Shard) (off sl ne nb po id : Nat) (hne : ne ≠ 0)
    (hlast : ¬ read32 (st.blocks off) (nb - 4) = id)
    (hpk : pack_integer ((id + 2 ^ 32 - read32 (st.blocks off) (nb - 4)) % 2 ^ 32) = none) :
    insertIntoBlock st off sl ne nb po id = none := by
  unfold insertIntoBlock
  rw [if_pos hne]
  dsimp only
  rw [if_neg hlast, hpk]

/-- On an empty header slot, `insert_ngram` allocates a first block and
inserts into it; the freshly initialised block always passes the capacity
check. -/
theorem insertNgram_alloc_eq (st : Shard) (id g : Nat)
    (hh : headOff st g = 0) (h4a : 4 ≤ st.alignment) (ha12 : st.alignment ≤ 12)
    (hoff : st.offset_size ≤ 6) :
    insertNgram st id g =
      insertIntoBlock (allocList st g).1 st.size st.alignment 0 0 0 id := by
  have h16 : 16 ≤ 2 ^ st.alignment := by
    calc (16 : Nat) = 2 ^ 4 := by norm_num
    _ ≤ 2 ^ st.alignment := Nat.pow_le_pow_right (by norm_num) h4a
  have hba : (allocList st g).2 = st.size := rfl
  have hao : (allocList st g).1.offset_size = st.offset_size := rfl
  have hma : getMeta (allocList st g).1 st.size = (st.alignment, 0, 0, 0) := by
    have h1 : (allocList st g).1 = updateListMeta
        (updateHeader (getNewFreeList st st.alignment).1 g st.size)
        st.size st.alignment 0 0 0 := rfl
    rw [h1]
    unfold getMeta
    rw [blocks_updateListMeta_same]
    dsimp only
    rw [Nat.mod_eq_of_lt (show st.alignment < 256 by omega)]
    simp [Nat.zero_shiftRight, Nat.zero_shiftLeft]
  unfold insertNgram
  dsimp only
  rw [if_pos hh, hba, hma]
  dsimp only
  rw [hao]
  rw [if_neg (by omega)]

/-- The master step lemma: a successful `insert_ngram` on an invariant
state within the offset reach preserves the invariant, and leaves the head
block of the n-gram's chain nonempty with the id as its raw hot tail. -/
theorem insertNgram_step {st st' : Shard} {id g : Nat}
    (hI : Inv st) (hid : id < 2 ^ 32)
    (h : insertNgram st id g = some st')
    (hB : st'.size ≤ 2 ^ (8 * st.offset_size + st.alignment)) :
    Inv st' ∧ headSpec st' id g := by
  by_cases hh : headOff st g = 0
  · -- empty slot: allocate a first block
    rw [insertNgram_alloc_eq st id g hh hI.al_lb hI.al_ub hI.off_ub,
      insertIntoBlock_zero] at h
    simp only [Nat.zero_add] at h
    injection h with h2
    subst h2
    have hpay : ((allocList st g).1.blocks st.size).payload =
        (st.blocks st.size).payload := by
      show ((updateListMeta (updateHeader (getNewFreeList st st.alignment).1 g st.size)
        st.size st.alignment 0 0 0).blocks st.size).payload = _
      rw [blocks_updateListMeta_same]
      rfl
    refine inv_fresh_block st (allocList st g).1 g id st.alignment 0 hI hid
      (le_refl _) hI.al_ub rfl rfl rfl rfl rfl (fun r => rfl) ?_ hpay hB
    intro o ho
    show (updateListMeta (updateHeader (getNewFreeList st st.alignment).1 g st.size)
      st.size st.alignment 0 0 0).blocks o = st.blocks o
    rw [blocks_updateListMeta_other _ _ _ _ _ _ ho]
    rfl
  · -- head block exists
    rcases hI.hdr_log (reduceNgram st g) with h0 | ⟨e, he, hee⟩
    · exfalso
      apply hh
      unfold headOff
      rw [h0]
      simp
    · obtain ⟨X, l⟩ := e
      have hXeq : headOff st g = X := by
        unfold headOff
        rw [Nat.mod_eq_of_lt (hI.hdr_lt _)]
        exact hee
      have hXne : X ≠ 0 := fun hc => hh (by rw [hXeq, hc])
      have hbX : BlockWF st (st.blocks X) l := hI.bwf (X, l) he
      have hm : getMeta st X = ((st.blocks X).size_log, (st.blocks X).nb_elem,
          (st.blocks X).nb_bytes,
          ((st.blocks X).prevRaw % 2 ^ (8 * st.offset_size)) <<< st.alignment) := rfl
      unfold insertNgram at h
      dsimp only at h
      rw [if_neg hh] at h
      dsimp only at h
      rw [hXeq, hm] at h
      dsimp only at h
      split at h
      · -- capacity exhausted: reallocate
        rw [insertIntoBlock_zero] at h
        simp only [Nat.zero_add] at h
        injection h with h2
        subst h2
        have hnsl_lb : st.alignment ≤ min ((st.blocks X).size_log + 1) 12 := by
          have h1 := hbX.al_le
          have h2 := hbX.sl_eq
          have h3 := hI.al_ub
          omega
        have hpay : ((reallocList st X g).1.blocks st.size).payload =
            (st.blocks st.size).payload := by
          show ((updateListMeta (updateHeader (getNewFreeList st
              (min ((st.blocks X).size_log + 1) 12)).1 g st.size)
            st.size (min ((st.blocks X).size_log + 1) 12)
            (st.blocks X).nb_elem 0 X).blocks st.size).payload = _
          rw [blocks_updateListMeta_same]
          rfl
        refine inv_fresh_block st (reallocList st X g).1 g id
          (min ((st.blocks X).size_log + 1) 12) X hI hid hnsl_lb (min_le_right _ _)
          rfl rfl rfl rfl rfl (fun r => rfl) ?_ hpay hB
        intro o ho
        show (updateListMeta (updateHeader (getNewFreeList st
            (min ((st.blocks X).size_log + 1) 12)).1 g st.size)
          st.size (min ((st.blocks X).size_log + 1) 12) (st.blocks X).nb_elem 0 X).blocks o =
          st.blocks o
        rw [blocks_updateListMeta_other _ _ _ _ _ _ ho]
        rfl
      · -- capacity ok
        rename_i hcap
        have hne0 : (st.blocks X).nb_elem ≠ 0 := by
          have := hbX.elem_ge1
          omega
        by_cases hlast : read32 (st.blocks X) ((st.blocks X).nb_bytes - 4) = id
        · rw [insertIntoBlock_noop st X _ _ _ _ id hne0 hlast] at h
          injection h with h2
          subst h2
          refine ⟨hI, ?_, ?_, ?_⟩
          · rw [hXeq]; exact hXne
          · rw [hXeq]; exact hbX.elem_ge1
          · rw [hXeq]; exact hlast
        · cases hpk : pack_integer ((id + 2 ^ 32 -
              read32 (st.blocks X) ((st.blocks X).nb_bytes - 4)) % 2 ^ 32) with
          | none =>
            rw [insertIntoBlock_panic st X _ _ _ _ id hne0 hlast hpk] at h
            exact Option.noConfusion h
          | some pk =>
            rw [insertIntoBlock_write st X _ _ _ _ id hne0 hlast hpk] at h
            injection h with h2
            subst h2
            have hcap2 : (st.blocks X).nb_bytes + 4 + 5 + st.offset_size ≤ 2 ^ l := by
              rw [← hbX.sl_eq]
              omega
            obtain ⟨hw1, hw4⟩ := pack_bounds hpk
            rw [hbX.sl_eq]
            exact inv_append_block st g id X l _ _ _ pk hI hid he hXeq hXne hcap2
              hw1 hw4 rfl rfl rfl

/-- Copying a block-wellformedness proof across states that share the two
relevant parameters. -/
theorem bwf_meta {s1 : Shard} (h : Inv s1) (nf li : Nat) :
    Inv { s1 with nb_file := nf, last_id := li } :=
  ⟨h.off_lb, h.off_ub, h.al_lb, h.al_ub, h.size_pos, h.size_al, h.fresh, h.unalloc,
    h.hdr_lt, h.hdr_log,
    fun e he => @BlockWF.transfer s1 _ _ _ rfl rfl (h.bwf e he)⟩

/-- Size monotonicity and parameter stability along an n-gram list. -/
theorem insertNgrams_mono {id : Nat} {gs : List Nat} :
    ∀ {st st' : Shard}, 4 ≤ st.alignment → st.alignment ≤ 12 → st.offset_size ≤ 6 →
      insertNgrams st id gs = some st' →
      st.size ≤ st'.size ∧ st'.offset_size = st.offset_size ∧
        st'.alignment = st.alignment := by
  induction gs with
  | nil =>
    intro st st' _ _ _ h
    injection h with h2
    subst h2
    exact ⟨le_refl _, rfl, rfl⟩
  | cons g gs ih =>
    intro st st' h4a ha12 hoff h
    unfold insertNgrams at h
    cases hg : insertNgram st id g with
    | none => rw [hg] at h; exact Option.noConfusion h
    | some st1 =>
      rw [hg] at h
      obtain ⟨p1, p2, _, hd⟩ := insertNgram_alloc h4a ha12 hoff hg
      have hmono1 : st.size ≤ st1.size := by
        rcases hd with ⟨_, hs⟩ | ⟨l, _, hs⟩
        · omega
        · have : 0 < 2 ^ l := Nat.pos_pow_of_pos _ (by norm_num)
          omega
      obtain ⟨q0, q1, q2⟩ := ih (p2 ▸ h4a) (p2 ▸ ha12) (p1 ▸ hoff) h
      exact ⟨le_trans hmono1 q0, q1.trans p1, q2.trans p2⟩

/-- The invariant is preserved along a whole n-gram list, as long as the
final size stays within the stored-offset reach. -/
theorem insertNgrams_inv {id : Nat} {gs : List Nat} :
    ∀ {st st' : Shard}, Inv st → id < 2 ^ 32 →
      insertNgrams st id gs = some st' →
      st'.size ≤ 2 ^ (8 * st.offset_size + st.alignment) → Inv st' := by
  induction gs with
  | nil =>
    intro st st' hI _ h _
    injection h with h2
    subst h2
    exact hI
  | cons g gs ih =>
    intro st st' hI hid h hB
    unfold insertNgrams at h
    cases hg : insertNgram st id g with
    | none => rw [hg] at h; exact Option.noConfusion h
    | some st1 =>
      rw [hg] at h
      obtain ⟨p1, p2, _, _⟩ := insertNgram_alloc hI.al_lb hI.al_ub hI.off_ub hg
      obtain ⟨q0, q1, q2⟩ := insertNgrams_mono (p2 ▸ hI.al_lb) (p2 ▸ hI.al_ub)
        (p1 ▸ hI.off_ub) h
      have hB1 : st1.size ≤ 2 ^ (8 * st.offset_size + st.alignment) := le_trans q0 hB
      have hI1 : Inv st1 := (insertNgram_step hI hid hg hB1).1
      exact ih hI1 hid h (by rw [p1, p2]; exact hB)

/-- Every reachable state whose size is within the stored-offset reach
satisfies the invariant. -/
theorem inv_of_reachable {st : Shard} (h : Reachable st) :
    st.size ≤ 2 ^ (8 * st.offset_size + st.alignment) → Inv st := by
  induction h with
  | create off a ng h1 h2 h3 h4 h5 h6 =>
    intro _
    have hpos : 0 < 2 ^ a := Nat.pos_pow_of_pos _ (by norm_num)
    have hlt : off * 2 ^ ng % 2 ^ a < 2 ^ a := Nat.mod_lt _ hpos
    have hsz : initialSize off a ng = 2 ^ a * (off * 2 ^ ng / 2 ^ a + 1) := by
      unfold initialSize
      dsimp only
      have h3' := Nat.div_add_mod (off * 2 ^ ng) (2 ^ a)
      rw [Nat.mul_add, Nat.mul_one]
      omega
    refine ⟨h1, h2, h3, h4, ?_, ?_, ?_, ?_, ?_, ?_, ?_⟩
    · show 1 ≤ initialSize off a ng
      unfold initialSize
      dsimp only
      omega
    · show initialSize off a ng % 2 ^ a = 0
      rw [hsz]
      exact Nat.mul_mod_right _ _
    · intro e he
      exact absurd he (List.not_mem_nil e)
    · intro o _
      rfl
    · intro r
      exact Nat.pos_pow_of_pos _ (by norm_num)
    · intro r
      exact Or.inl rfl
    · intro e he
      exact absurd he (List.not_mem_nil e)
  | @insert st1 st2 id g hR hid hstep ih =>
    intro hB
    obtain ⟨r1, r2, r3, r4, _⟩ := reachable_alloc _ hR
    obtain ⟨p1, p2, _, hd⟩ := insertNgram_alloc r3 r4 r2 hstep
    rw [p1, p2] at hB
    have hmono : st1.size ≤ st2.size := by
      rcases hd with ⟨_, hs⟩ | ⟨l, _, hs⟩
      · exact le_of_eq hs.symm
      · have : 0 < 2 ^ l := Nat.pos_pow_of_pos _ (by norm_num)
        omega
    have hI := ih (le_trans hmono hB)
    exact (insertNgram_step hI hid hstep hB).1
  | @file st1 st2 B id hR hid hstep ih =>
    intro hB
    obtain ⟨r1, r2, r3, r4, _⟩ := reachable_alloc _ hR
    unfold insertFile at hstep
    cases hg : insertNgrams _ id (fileNgrams B) with
    | none => rw [hg] at hstep; exact Option.noConfusion hstep
    | some s1 =>
      rw [hg] at hstep
      injection hstep with h2
      subst h2
      obtain ⟨q0, q1, q2⟩ := insertNgrams_mono r3 r4 r2 hg
      have hB2 : s1.size ≤ 2 ^ (8 * st1.offset_size + st1.alignment) := by
        have hs : ({ s1 with nb_file := s1.nb_file + 1, last_id := id } : Shard).size =
          s1.size := rfl
        rw [hs, q1, q2] at hB
        exact hB
      have hI := ih (le_trans q0 hB2)
      have hI1 : Inv s1 := insertNgrams_inv hI hid hg hB2
      exact bwf_meta hI1 _ _

/-- C2 (amended): in every reachable shard state whose size is within the
stored-offset reach `2^(8*offset_size + alignment)`, every allocated block
satisfies `nb_bytes + (1 + 2 + 2 + offset_size) ≤ 2^size_log`, where
`nb_bytes` already counts the 4-byte raw hot tail; every payload byte at or
beyond `2^size_log - (5 + offset_size)` is still zero, so no insert ever
writes past the end of its block.  (The claimed form with an extra `+ 4`
for the hot tail double-counts the tail; see the counterexample.) -/
theorem c2_capacity_invariant (st : Shard) (hR : Reachable st)
    (hB : st.size ≤ 2 ^ (8 * st.offset_size + st.alignment)) :
    ∀ e ∈ st.allocLog,
      (st.blocks e.1).nb_bytes + (1 + 2 + 2 + st.offset_size) ≤
        2 ^ (st.blocks e.1).size_log ∧
      ∀ p, 2 ^ (st.blocks e.1).size_log - (5 + st.offset_size) ≤ p →
        (st.blocks e.1).payload p = 0 := by
  intro e he
  have hI := inv_of_reachable hR hB
  obtain ⟨hsl, _, _, hcap, _, _, _, _, htl0, _⟩ := hI.bwf e he
  rw [hsl]
  constructor
  · omega
  · intro p hp
    exact htl0 p (by omega)

/-- C2 amended-claim witness: the invariant inequality and the untouched
byte beyond the block end, at the head block of `stB0`. -/
theorem c2_capacity_witness :
    (stB0.blocks 1342177344).nb_bytes + (1 + 2 + 2 + stB0.offset_size) ≤
      2 ^ (stB0.blocks 1342177344).size_log ∧
    (stB0.blocks 1342177344).payload 54 = 0 := by
  have h := c2_capacity_invariant stB0 reachable_stB0 (by decide)
    (1342177344, 6) (by decide)
  exact ⟨h.1, h.2 54 (by decide)⟩

/-- C5 (amended): away from a block-capacity boundary the duplicate insert
is a strict no-op: if `(id, g)` was just inserted into a reachable shard
(within offset reach) and the head block of `g`'s chain still passes the
capacity check, the second `insert_ngram(id, g)` observes the hot tail and
returns without modifying the state.  (At a capacity boundary it instead
reallocates, see the counterexample.) -/
theorem c5_duplicate_noop (st st1 : Shard) (id g : Nat)
    (hR : Reachable st) (hid : id < 2 ^ 32)
    (h1 : insertNgram st id g = some st1)
    (hB : st1.size ≤ 2 ^ (8 * st.offset_size + st.alignment))
    (hcap : capacityOk st1 g) :
    insertNgram st1 id g = some st1 := by
  obtain ⟨r1, r2, r3, r4, _⟩ := reachable_alloc _ hR
  obtain ⟨p1, p2, _, hd⟩ := insertNgram_alloc r3 r4 r2 h1
  have hmono : st.size ≤ st1.size := by
    rcases hd with ⟨_, hs⟩ | ⟨l, _, hs⟩
    · exact le_of_eq hs.symm
    · have : 0 < 2 ^ l := Nat.pos_pow_of_pos _ (by norm_num)
      omega
  have hI : Inv st := inv_of_reachable hR (le_trans hmono hB)
  obtain ⟨hI1, hS⟩ := insertNgram_step hI hid h1 hB
  obtain ⟨hX0, hge1, htail⟩ := hS
  unfold insertNgram
  dsimp only
  rw [if_neg hX0]
  dsimp only
  unfold capacityOk at hcap
  rw [if_neg (not_lt.2 hcap)]
  apply insertIntoBlock_noop
  · show (st1.blocks (headOff st1 g)).nb_elem ≠ 0
    omega
  · exact htail

/-- C5 amended-claim witness: a fresh shard, one insert of `(5, 3)`, then
the duplicate insert is a strict no-op. -/
theorem c5_duplicate_noop_witness :
    insertNgram ((insertNgram shard0 5 3).getD shard0) 5 3 =
      some ((insertNgram shard0 5 3).getD shard0) :=
  c5_duplicate_noop shard0 ((insertNgram shard0 5 3).getD shard0) 5 3
    (Reachable.create 5 6 28 (by norm_num) (by norm_num) (by norm_num)
      (by norm_num) (by norm_num) (by norm_num))
    (by norm_num) rfl (by decide) (by unfold capacityOk; decide)

/-- `getD` with default 0 on an all-zero list is 0 at every index. -/
theorem getD_replicate_zero : ∀ n i : Nat, (List.replicate n (0 : Nat)).getD i 0 = 0
  | 0, _ => rfl
  | _ + 1, 0 => rfl
  | n + 1, i + 1 => getD_replicate_zero n i

/-- Every 4-byte window of an all-zero buffer is the zero n-gram. -/
theorem ngramAt_replicate_zero (n i : Nat) : ngramAt (List.replicate n 0) i = 0 := by
  unfold ngramAt byteAt
  rw [getD_replicate_zero, getD_replicate_zero, getD_replicate_zero, getD_replicate_zero]

/-- The window that straddles the end of an all-zero buffer followed by one
byte `b` reads `b` into its most significant position. -/
theorem ngramAt_replicate_append (n b : Nat) (h : 3 ≤ n) :
    ngramAt (List.replicate n 0 ++ [b]) (n - 3) = 16777216 * (b % 256) := by
  have hl : (List.replicate n (0 : Nat)).length = n := List.length_replicate _ _
  have h1 : n - 3 < (List.replicate n (0 : Nat)).length := by rw [hl]; omega
  have h2 : n - 3 + 1 < (List.replicate n (0 : Nat)).length := by rw [hl]; omega
  have h3 : n - 3 + 2 < (List.replicate n (0 : Nat)).length := by rw [hl]; omega
  have h4 : (List.replicate n (0 : Nat)).length ≤ n - 3 + 3 := by rw [hl]; omega
  unfold ngramAt byteAt
  rw [List.getD_append _ _ _ _ h1, List.getD_append _ _ _ _ h2,
    List.getD_append _ _ _ _ h3, List.getD_append_right _ _ _ _ h4,
    getD_replicate_zero, getD_replicate_zero, getD_replicate_zero, hl,
    show n - 3 + 3 - n = 0 from by omega]
  show 0 % 256 + 256 * (0 % 256) + 65536 * (0 % 256) + 16777216 * (b % 256) = _
  norm_num

/-- The length of the boundary file. -/
theorem fileB_length : fileB.length = 1048577 := by
  unfold fileB
  rw [List.length_append, List.length_replicate]
  rfl

/-- The zero prefix of `fileB` fills the read buffer exactly. -/
theorem replicate_length_bufSize : (List.replicate 1048576 (0 : Nat)).length = bufSize := by
  rw [List.length_replicate]
  norm_num [bufSize]

/-- `insert_file` performs exactly one full buffer read on `fileB`; the
final 1-byte read is discarded by the `1 | 2 | 3 => break` arm. -/
theorem fileChunks_fileB : fileChunks fileB = [List.replicate 1048576 0] := by
  rw [fileChunks]
  rw [dif_neg (show ¬ fileB.length < 4 by rw [fileB_length]; norm_num)]
  have h1 : List.take bufSize fileB = List.replicate 1048576 0 := by
    unfold fileB
    exact List.take_left' replicate_length_bufSize
  have h2 : List.drop bufSize fileB = [1] := by
    unfold fileB
    exact List.drop_left' replicate_length_bufSize
  rw [h1, h2, fileChunks]
  rw [dif_pos (show ([1] : List Nat).length < 4 by norm_num)]

/-- The n-grams `insert_file` actually inserts for `fileB`: only the
windows of the first 1 MiB chunk, all of which are the zero n-gram.  The
three windows straddling the read-buffer boundary are never produced. -/
theorem fileNgrams_fileB : fileNgrams fileB = List.replicate 1048573 0 := by
  unfold fileNgrams
  rw [fileChunks_fileB, List.map_cons, List.map_nil, List.flatten_cons, List.flatten_nil,
    List.append_nil]
  unfold chunkNgrams
  rw [List.length_replicate]
  rw [List.map_congr_left (fun i _ => ngramAt_replicate_zero 1048576 i)]
  rw [List.map_const', List.length_range]

/-- Unfolding one step of the insertion fold. -/
theorem insertNgrams_cons_some (st st1 : Shard) (id g : Nat) (gs : List Nat)
    (h : insertNgram st id g = some st1) :
    insertNgrams st id (g :: gs) = insertNgrams st1 id gs := by
  rw [insertNgrams.eq_2, h]

/-- Once an id is the hot tail, re-inserting it under the same n-gram any
number of times changes nothing. -/
theorem insertNgrams_replicate_noop (st : Shard) (id g : Nat)
    (h : insertNgram st id g = some st) :
    ∀ n, insertNgrams st id (List.replicate n g) = some st
  | 0 => rfl
  | n + 1 => by
    rw [List.replicate_succ]
    rw [insertNgrams_cons_some st st id g _ h]
    exact insertNgrams_replicate_noop st id g h n

/-- C1: `insert_file` misses the 4-byte windows that straddle the
boundaries of its `4096*256`-byte read buffer.  For the file `fileB` of
length `2^20 + 1` (`2^20` zero bytes then `0x01`), the window at offset
`2^20 - 3` is `[0, 0, 0, 1]`, i.e. the n-gram `0x01000000 = 16777216`; but
`insert_file` only ever inserts the zero n-gram, so afterwards
`get_ids_by_ngram(0x01000000)` does not contain the id and
`get_ids_size_by_ngram(0x01000000)` is 0, contradicting the claim. -/
theorem c1_buffer_boundary_window_missed :
    fileB.length = 1048577 ∧
    ngramAt fileB 1048573 = 16777216 ∧
    insertFile shard0 fileB 7 = some st1file ∧
    7 ∉ getIdsByNgram st1file 16777216 ∧
    getIdsSizeByNgram st1file 16777216 = 0 := by
  refine ⟨fileB_length, ?_, ?_, ?_, ?_⟩
  · have h := ngramAt_replicate_append 1048576 1 (by norm_num)
    rw [show (1048576 : Nat) - 3 = 1048573 from by norm_num,
      show (16777216 : Nat) * (1 % 256) = 16777216 from by norm_num] at h
    exact h
  · show (insertNgrams shard0 7 (fileNgrams fileB)).map
      (fun s => { s with nb_file := s.nb_file + 1, last_id := 7 }) = some st1file
    rw [fileNgrams_fileB]
    rw [show (1048573 : Nat) = 1048572 + 1 from by norm_num, List.replicate_succ]
    rw [insertNgrams_cons_some shard0 st1z 7 0 (List.replicate 1048572 0) rfl]
    rw [insertNgrams_replicate_noop st1z 7 0 rfl 1048572]
    rfl
  · decide
  · decide

end Binacle
